import Mathlib

/-!
Verification of the Webscrap RAG chatbot (`src/main.py`) against its
natural-language specification.  Texts are modelled as `List Char`;
Python `str.replace` is modelled by `pyReplace` (including the
empty-pattern semantics of CPython, which interleaves the replacement
between every character); JSON objects are modelled as ordered
key/value association lists.
-/

namespace RagBot

/-- `Starts p s` : the list `p` is an initial segment of `s`
(Python `s.startswith(p)`). -/
def Starts (p s : List Char) : Prop := ∃ v, s = p ++ v

/-- `Occ q s` : `q` occurs as a contiguous run inside `s`
(Python `q in s`). -/
def Occ (q s : List Char) : Prop := ∃ u v, s = u ++ q ++ v

/-- Boolean version of `Starts`. -/
def startsB : List Char → List Char → Bool
  | [], _ => true
  | _ :: _, [] => false
  | a :: p, b :: s => a = b && startsB p s

/-- Boolean version of `Occ`. -/
def occB (q : List Char) : List Char → Bool
  | [] => q.isEmpty
  | c :: s => startsB q (c :: s) || occB q s

theorem startsB_iff : ∀ p s : List Char, startsB p s = true ↔ Starts p s := by
  intro p
  induction p with
  | nil => intro s; simp [startsB, Starts]
  | cons a p ih =>
      intro s
      cases s with
      | nil =>
          simp only [startsB, Starts]
          constructor
          · intro h; cases h
          · rintro ⟨v, hv⟩; cases hv
      | cons b s =>
          simp only [startsB, Bool.and_eq_true, decide_eq_true_eq, ih]
          constructor
          · rintro ⟨rfl, v, rfl⟩; exact ⟨v, rfl⟩
          · rintro ⟨v, hv⟩
            injection hv with h1 h2
            exact ⟨h1.symm, v, h2⟩

theorem occB_iff : ∀ q s : List Char, occB q s = true ↔ Occ q s := by
  intro q s
  induction s with
  | nil =>
      simp only [occB, List.isEmpty_iff, Occ]
      constructor
      · rintro rfl; exact ⟨[], [], rfl⟩
      · rintro ⟨u, v, huv⟩
        rcases List.append_eq_nil.mp huv.symm with ⟨h1, h2⟩
        exact (List.append_eq_nil.mp h1).2
  | cons c s ih =>
      simp only [occB, Bool.or_eq_true, startsB_iff, ih]
      constructor
      · rintro (⟨v, hv⟩ | ⟨u, v, huv⟩)
        · exact ⟨[], v, by simp [hv]⟩
        · exact ⟨c :: u, v, by simp [huv]⟩
      · rintro ⟨u, v, huv⟩
        cases u with
        | nil => exact Or.inl ⟨v, by simpa using huv⟩
        | cons x u =>
            injection huv with h1 h2
            exact Or.inr ⟨u, v, h2⟩

instance (p s : List Char) : Decidable (Starts p s) :=
  decidable_of_iff (startsB p s = true) (startsB_iff p s)

instance (q s : List Char) : Decidable (Occ q s) :=
  decidable_of_iff (occB q s = true) (occB_iff q s)

theorem starts_occ {p s : List Char} (h : Starts p s) : Occ p s := by
  rcases h with ⟨v, rfl⟩; exact ⟨[], v, rfl⟩

theorem occ_append_right {q b : List Char} (a : List Char) (h : Occ q b) :
    Occ q (a ++ b) := by
  rcases h with ⟨u, v, rfl⟩
  exact ⟨a ++ u, v, by simp⟩

theorem occ_append_left {q a : List Char} (b : List Char) (h : Occ q a) :
    Occ q (a ++ b) := by
  rcases h with ⟨u, v, rfl⟩
  exact ⟨u, v ++ b, by simp⟩

theorem occ_cons {q : List Char} (c : Char) {s : List Char} (h : Occ q s) :
    Occ q (c :: s) := by
  rcases h with ⟨u, v, rfl⟩
  exact ⟨c :: u, v, rfl⟩

theorem occ_cons_elim {q : List Char} {c : Char} {s : List Char}
    (h : Occ q (c :: s)) : Starts q (c :: s) ∨ Occ q s := by
  rcases h with ⟨u, v, huv⟩
  cases u with
  | nil => exact Or.inl ⟨v, by simpa using huv⟩
  | cons x u =>
      injection huv with h1 h2
      exact Or.inr ⟨u, v, h2⟩

theorem starts_nil {q : List Char} (h : Starts q []) : q = [] := by
  rcases h with ⟨v, hv⟩
  exact (List.append_eq_nil.mp hv.symm).1

theorem occ_nil {q : List Char} (h : Occ q []) : q = [] := by
  rcases h with ⟨u, v, huv⟩
  rcases List.append_eq_nil.mp huv.symm with ⟨h1, _⟩
  exact (List.append_eq_nil.mp h1).2

/-- Splitting a `Starts` across an append: the pattern either stops inside
`a` or swallows all of `a` and continues into `b`. -/
theorem starts_append_split {q a b : List Char} (h : Starts q (a ++ b)) :
    Starts q a ∨ ∃ q₂, q = a ++ q₂ ∧ Starts q₂ b := by
  induction a generalizing q with
  | nil => exact Or.inr ⟨q, rfl, by simpa using h⟩
  | cons c a ih =>
      cases q with
      | nil => exact Or.inl ⟨c :: a, rfl⟩
      | cons d q =>
          rcases h with ⟨v, hv⟩
          rw [List.cons_append] at hv
          injection hv with h1 h2
          subst h1
          rcases ih ⟨v, h2⟩ with hq | ⟨q₂, rfl, hb⟩
          · rcases hq with ⟨w, hw⟩
            exact Or.inl ⟨w, by rw [hw, List.cons_append]⟩
          · exact Or.inr ⟨q₂, by rw [List.cons_append], hb⟩

/-- Splitting an occurrence across an append: the occurrence lies in `a`,
lies in `b`, or straddles the boundary. -/
theorem occ_append_split {q a b : List Char} (h : Occ q (a ++ b)) :
    Occ q a ∨ Occ q b ∨
      ∃ q₁ q₂, q = q₁ ++ q₂ ∧ q₁ ≠ [] ∧ q₂ ≠ [] ∧
        (∃ u, a = u ++ q₁) ∧ Starts q₂ b := by
  induction a with
  | nil => exact Or.inr (Or.inl (by simpa using h))
  | cons c a ih =>
      rcases occ_cons_elim (by simpa using h) with hs | ho
      · rcases starts_append_split (q := q) (a := c :: a) (b := b) hs with
          hq | ⟨q₂, rfl, hb⟩
        · exact Or.inl (starts_occ hq)
        · cases q₂ with
          | nil => exact Or.inl (starts_occ ⟨[], by simp⟩)
          | cons e q₂ =>
              exact Or.inr (Or.inr ⟨c :: a, e :: q₂, rfl, by simp, by simp,
                ⟨[], rfl⟩, hb⟩)
      · rcases ih ho with h1 | h2 | ⟨q₁, q₂, rfl, hq1, hq2, ⟨u, rfl⟩, hb⟩
        · exact Or.inl (occ_cons c h1)
        · exact Or.inr (Or.inl h2)
        · exact Or.inr (Or.inr ⟨q₁, q₂, rfl, hq1, hq2, ⟨c :: u, rfl⟩, hb⟩)

/-- Every character of an occurring pattern is a character of the text. -/
theorem occ_subset {q s : List Char} (h : Occ q s) : ∀ c ∈ q, c ∈ s := by
  rcases h with ⟨u, v, rfl⟩
  intro c hc
  simp [hc]

theorem starts_length {p s : List Char} (h : Starts p s) : p.length ≤ s.length := by
  rcases h with ⟨v, rfl⟩
  simp

/-- Two patterns starting at the same place agree on the shorter one. -/
theorem starts_starts {a b s : List Char} (ha : Starts a s) (hb : Starts b s)
    (hab : a.length ≤ b.length) : Starts a b := by
  rcases ha with ⟨u, hu⟩
  rcases hb with ⟨v, hv⟩
  have key : a ++ u = b ++ v := hu.symm.trans hv
  have h1 : a = b.take a.length := by
    calc a = (a ++ u).take a.length := by simp
    _ = (b ++ v).take a.length := by rw [key]
    _ = b.take a.length := List.take_append_of_le_length hab
  refine ⟨b.drop a.length, ?_⟩
  calc b = b.take a.length ++ b.drop a.length := (List.take_append_drop _ _).symm
  _ = a ++ b.drop a.length := by rw [← h1]

/-!
Model of Python `str.replace(old, new)`.

CPython semantics: for a non-empty `old`, scan left to right; at each
position, if `old` matches, emit `new` and resume after the match,
otherwise emit the current character.  For the empty `old`, `new` is
interleaved before every character and once at the end
(`"ab".replace("", "X") == "XaXbX"`).
-/

/-- Empty-pattern replacement: interleave `r` around every character. -/
def emptyIns (r : List Char) : List Char → List Char
  | [] => r
  | c :: s => r ++ c :: emptyIns r s

/-- Non-empty-pattern scanner for `str.replace`, with the pattern held as
`a :: p`.  The fuel argument makes the recursion structural; it is adequate
whenever `fuel ≥ s.length`. -/
def repFuel (a : Char) (p r : List Char) : Nat → List Char → List Char
  | _, [] => []
  | 0, s => s
  | n + 1, c :: s =>
      if startsB (a :: p) (c :: s) then r ++ repFuel a p r n (s.drop p.length)
      else c :: repFuel a p r n s

/-- Python `s.replace(old, new)` (replace all occurrences). -/
def pyReplace (s old new : List Char) : List Char :=
  match old with
  | [] => emptyIns new s
  | a :: p => repFuel a p new s.length s

theorem emptyIns_length (r : List Char) :
    ∀ s : List Char, (emptyIns r s).length = s.length + (s.length + 1) * r.length := by
  intro s
  induction s with
  | nil => simp [emptyIns]
  | cons c s ih =>
      simp only [emptyIns, List.length_append, List.length_cons, ih]
      ring

theorem repFuel_nil (a : Char) (p r : List Char) (n : Nat) :
    repFuel a p r n [] = [] := by
  cases n <;> rfl

theorem repFuel_cons_match {a : Char} {p : List Char} (r : List Char) {n : Nat}
    {c : Char} {s : List Char} (h : startsB (a :: p) (c :: s) = true) :
    repFuel a p r (n + 1) (c :: s) = r ++ repFuel a p r n (s.drop p.length) := by
  simp [repFuel, h]

theorem repFuel_cons_keep {a : Char} {p : List Char} (r : List Char) {n : Nat}
    {c : Char} {s : List Char} (h : ¬ startsB (a :: p) (c :: s) = true) :
    repFuel a p r (n + 1) (c :: s) = c :: repFuel a p r n s := by
  simp [repFuel, h]

/-- A successful match decomposes the text as pattern ++ remainder. -/
theorem starts_decomp {a : Char} {p : List Char} {c : Char} {s : List Char}
    (h : startsB (a :: p) (c :: s) = true) :
    c :: s = (a :: p) ++ s.drop p.length := by
  rcases (startsB_iff _ _).mp h with ⟨v, hv⟩
  have h1 : c = a := (List.cons.inj (by simpa using hv)).1
  have h2 : s = p ++ v := (List.cons.inj (by simpa using hv)).2
  have hd : s.drop p.length = v := by rw [h2, List.drop_left]
  rw [hd, h1, h2]
  simp

/-- The last element of a concatenation ending in `[x]` lands in any
non-empty final segment. -/
theorem concat_mem_right {x : Char} {xs u v : List Char}
    (h : xs ++ [x] = u ++ v) (hv : v ≠ []) : x ∈ v := by
  rcases List.eq_nil_or_concat v with rfl | ⟨ys, y, rfl⟩
  · exact absurd rfl hv
  · have h' : xs ++ [x] = (u ++ ys) ++ [y] := by
      rw [h, List.concat_eq_append, List.append_assoc]
    have hx : x = y := by
      have := congrArg List.getLast? h'
      rw [List.getLast?_concat, List.getLast?_concat] at this
      exact Option.some.inj this
    simp [hx, List.concat_eq_append]

/-- Reflection of bracket-free initial segments through the scanner, when
the replacement starts with `[`: a bracket-free `q` starting the output
already started the input. -/
theorem starts_reflect {a : Char} {p r : List Char}
    (hr : ∃ r', r = '[' :: r') :
    ∀ n s q, s.length ≤ n → q ≠ [] → '[' ∉ q →
      Starts q (repFuel a p r n s) → Starts q s := by
  intro n
  induction n with
  | zero =>
      intro s q hs hq _ h
      cases s with
      | nil => exact absurd (starts_nil (by simpa [repFuel_nil] using h)) hq
      | cons c s => simp at hs
  | succ n ih =>
      intro s q hs hq hbr h
      cases s with
      | nil => exact absurd (starts_nil (by simpa [repFuel_nil] using h)) hq
      | cons c s =>
          by_cases hm : startsB (a :: p) (c :: s) = true
          · rw [repFuel_cons_match r hm] at h
            rcases hr with ⟨r', rfl⟩
            cases q with
            | nil => exact absurd rfl hq
            | cons d q' =>
                rcases h with ⟨v, hv⟩
                have h1 : '[' = d := (List.cons.inj (by simpa using hv)).1
                exact absurd (h1 ▸ List.mem_cons_self _ _) hbr
          · rw [repFuel_cons_keep r hm] at h
            cases q with
            | nil => exact absurd rfl hq
            | cons d q' =>
                rcases h with ⟨v, hv⟩
                have h1 : c = d := (List.cons.inj (by simpa using hv)).1
                have h2 : repFuel a p r n s = q' ++ v :=
                  (List.cons.inj (by simpa using hv)).2
                cases q' with
                | nil => exact ⟨s, by rw [h1]; simp⟩
                | cons e q'' =>
                    have hq' : Starts (e :: q'') s :=
                      ih s (e :: q'') (Nat.le_of_succ_le_succ hs) (by simp)
                        (fun hmem => hbr (List.mem_cons_of_mem _ hmem)) ⟨v, h2⟩
                    rcases hq' with ⟨w, hw⟩
                    exact ⟨w, by rw [h1, hw]; simp⟩

theorem getD_append_left {l₁ l₂ : List Char} {m : Nat} (h : m < l₁.length) (d : Char) :
    (l₁ ++ l₂).getD m d = l₁.getD m d := by
  induction l₁ generalizing m with
  | nil => simp at h
  | cons c l ih =>
      cases m with
      | zero => rfl
      | succ m =>
          simp only [List.cons_append, List.getD_cons_succ]
          exact ih (Nat.lt_of_succ_lt_succ h)

theorem getD_drop (l : List Char) (k m : Nat) (d : Char) :
    (l.drop k).getD m d = l.getD (k + m) d := by
  induction l generalizing k with
  | nil => simp
  | cons c l ih =>
      cases k with
      | zero => simp
      | succ k =>
          simp only [List.drop_succ_cons]
          rw [ih k]
          have he : k + 1 + m = (k + m) + 1 := by omega
          rw [he, List.getD_cons_succ]

theorem starts_getD {q s : List Char} (h : Starts q s) {m : Nat}
    (hm : m < q.length) (d : Char) : s.getD m d = q.getD m d := by
  rcases h with ⟨v, rfl⟩
  exact getD_append_left hm d

theorem drop_eq_cons (l : List Char) (k : Nat) (h : k < l.length) (d : Char) :
    l.drop k = l.getD k d :: l.drop (k + 1) := by
  induction l generalizing k with
  | nil => simp at h
  | cons c l ih =>
      cases k with
      | zero => simp
      | succ k =>
          simp only [List.drop_succ_cons, List.getD_cons_succ]
          exact ih k (Nat.lt_of_succ_lt_succ h)

theorem drop_fuel_le {c : Char} {s : List Char} {n m : Nat}
    (hs : (c :: s).length ≤ n + 1) : (s.drop m).length ≤ n := by
  rw [List.length_drop]
  simp only [List.length_cons] at hs
  omega

theorem mem_drop_concat {x : Char} {mid : List Char} {j : Nat}
    (h : j < (mid ++ [x]).length) : x ∈ (mid ++ [x]).drop j := by
  induction mid generalizing j with
  | nil =>
      have hj : j = 0 := Nat.lt_one_iff.mp (by simpa using h)
      simp [hj]
  | cons c mid ih =>
      cases j with
      | zero => simp
      | succ j => simpa using ih (by simpa using h)

/-- Scanning for the pattern itself with a `[...]`-token replacement removes
every occurrence of a bracket-free pattern. -/
theorem rep_removes {a : Char} {p r : List Char}
    (hb1 : '[' ∉ a :: p) (hb2 : ']' ∉ a :: p)
    (hpr : ¬ Occ (a :: p) r)
    (hr : ∃ mid, r = '[' :: mid ++ [']']) :
    ∀ n s, s.length ≤ n → ¬ Occ (a :: p) (repFuel a p r n s) := by
  have hr' : ∃ r', r = '[' :: r' := by
    rcases hr with ⟨mid, rfl⟩; exact ⟨mid ++ [']'], rfl⟩
  intro n
  induction n with
  | zero =>
      intro s hs h
      cases s with
      | nil => exact absurd (occ_nil (by simpa [repFuel_nil] using h)) (by simp)
      | cons c s => simp at hs
  | succ n ih =>
      intro s hs h
      cases s with
      | nil => exact absurd (occ_nil (by simpa [repFuel_nil] using h)) (by simp)
      | cons c s =>
          by_cases hm : startsB (a :: p) (c :: s) = true
          · rw [repFuel_cons_match r hm] at h
            rcases occ_append_split h with h1 | h2 | ⟨q₁, q₂, hqq, hq1, _, ⟨u, hu⟩, _⟩
            · exact hpr h1
            · exact ih _ (drop_fuel_le hs) h2
            · rcases hr with ⟨mid, rfl⟩
              have hmem : ']' ∈ q₁ := concat_mem_right (by rw [List.cons_append]; exact hu) hq1
              exact hb2 (by rw [hqq]; exact List.mem_append_left _ hmem)
          · rw [repFuel_cons_keep r hm] at h
            rcases occ_cons_elim h with hst | ho
            · rcases hst with ⟨v, hv⟩
              have h1 : a = c := (List.cons.inj (by simpa using hv)).1.symm
              have h2 : repFuel a p r n s = p ++ v := (List.cons.inj (by simpa using hv)).2
              have hstart : Starts (a :: p) (c :: s) := by
                cases p with
                | nil => exact ⟨s, by simp [h1]⟩
                | cons e p' =>
                    rcases starts_reflect hr' n s (e :: p') (Nat.le_of_succ_le_succ hs)
                      (by simp) (fun hmem => hb1 (List.mem_cons_of_mem _ hmem)) ⟨v, h2⟩
                      with ⟨w, hw⟩
                    exact ⟨w, by rw [← h1, hw]; simp⟩
              exact hm ((startsB_iff _ _).mpr hstart)
            · exact ih s (Nat.le_of_succ_le_succ hs) ho

/-- Replacing one bracket-free pattern by a `[...]` token cannot create an
occurrence of another absent bracket-free string. -/
theorem rep_keeps_absent {a : Char} {p r q : List Char}
    (hq : q ≠ []) (hb1 : '[' ∉ q) (hb2 : ']' ∉ q) (hqr : ¬ Occ q r)
    (hr : ∃ mid, r = '[' :: mid ++ [']']) :
    ∀ n s, s.length ≤ n → ¬ Occ q s → ¬ Occ q (repFuel a p r n s) := by
  have hr' : ∃ r', r = '[' :: r' := by
    rcases hr with ⟨mid, rfl⟩; exact ⟨mid ++ [']'], rfl⟩
  intro n
  induction n with
  | zero =>
      intro s hs _ h
      cases s with
      | nil => exact absurd (occ_nil (by simpa [repFuel_nil] using h)) hq
      | cons c s => simp at hs
  | succ n ih =>
      intro s hs hqs h
      cases s with
      | nil => exact absurd (occ_nil (by simpa [repFuel_nil] using h)) hq
      | cons c s =>
          by_cases hm : startsB (a :: p) (c :: s) = true
          · rw [repFuel_cons_match r hm] at h
            have hdec := starts_decomp hm
            have hqs2 : ¬ Occ q (s.drop p.length) := fun hh =>
              hqs (by rw [hdec]; exact occ_append_right _ hh)
            rcases occ_append_split h with h1 | h2 | ⟨q₁, q₂, hqq, hq1, _, ⟨u, hu⟩, _⟩
            · exact hqr h1
            · exact ih _ (drop_fuel_le hs) hqs2 h2
            · rcases hr with ⟨mid, rfl⟩
              have hmem : ']' ∈ q₁ := concat_mem_right (by rw [List.cons_append]; exact hu) hq1
              exact hb2 (by rw [hqq]; exact List.mem_append_left _ hmem)
          · rw [repFuel_cons_keep r hm] at h
            rcases occ_cons_elim h with hst | ho
            · cases q with
              | nil => exact hq rfl
              | cons d q' =>
                  rcases hst with ⟨v, hv⟩
                  have h1 : c = d := (List.cons.inj (by simpa using hv)).1
                  have h2 : repFuel a p r n s = q' ++ v :=
                    (List.cons.inj (by simpa using hv)).2
                  have hstart : Starts (d :: q') (c :: s) := by
                    cases q' with
                    | nil => exact ⟨s, by simp [h1]⟩
                    | cons e q'' =>
                        rcases starts_reflect hr' n s (e :: q'')
                          (Nat.le_of_succ_le_succ hs) (by simp)
                          (fun hmem => hb1 (List.mem_cons_of_mem _ hmem)) ⟨v, h2⟩
                          with ⟨w, hw⟩
                        exact ⟨w, by rw [h1, hw]; simp⟩
                  exact hqs (starts_occ hstart)
            · exact ih s (Nat.le_of_succ_le_succ hs)
                (fun hh => hqs (occ_cons c hh)) ho

/-- If the pattern never occurs, the scanner is the identity. -/
theorem rep_id_of_no_occ {a : Char} {p : List Char} (r : List Char) :
    ∀ n s, s.length ≤ n → ¬ Occ (a :: p) s → repFuel a p r n s = s := by
  intro n
  induction n with
  | zero =>
      intro s hs _
      cases s with
      | nil => exact repFuel_nil _ _ _ _
      | cons c s => simp at hs
  | succ n ih =>
      intro s hs h
      cases s with
      | nil => exact repFuel_nil _ _ _ _
      | cons c s =>
          by_cases hm : startsB (a :: p) (c :: s) = true
          · exact absurd (starts_occ ((startsB_iff _ _).mp hm)) h
          · rw [repFuel_cons_keep r hm,
              ih s (Nat.le_of_succ_le_succ hs) (fun hh => h (occ_cons c hh))]

/-- Reflection of tails of a `]`-terminated string `Q` through the scanner,
for a replacement that is `]`-free and does not occur inside `Q`. -/
theorem drop_starts_reflect {a : Char} {p r Q : List Char}
    (hrb : ']' ∉ r) (hro : ¬ Occ r Q)
    (hP : ∃ mid, Q = mid ++ [']']) :
    ∀ n s j, s.length ≤ n → j < Q.length →
      Starts (Q.drop j) (repFuel a p r n s) →
      Starts (Q.drop j) s := by
  have hne : ∀ j, j < Q.length → Q.drop j ≠ [] := by
    intro j hj hnil
    have hlen := congrArg List.length hnil
    rw [List.length_drop] at hlen
    simp only [List.length_nil] at hlen
    omega
  intro n
  induction n with
  | zero =>
      intro s j hs hj h
      cases s with
      | nil => exact absurd (starts_nil (by simpa [repFuel_nil] using h)) (hne j hj)
      | cons c s => simp at hs
  | succ n ih =>
      intro s j hs hj h
      cases s with
      | nil => exact absurd (starts_nil (by simpa [repFuel_nil] using h)) (hne j hj)
      | cons c s =>
          by_cases hm : startsB (a :: p) (c :: s) = true
          · exfalso
            rw [repFuel_cons_match r hm] at h
            by_cases hlen : (Q.drop j).length ≤ r.length
            · have h1 : Starts (Q.drop j) r := starts_starts h ⟨_, rfl⟩ hlen
              rcases hP with ⟨mid, hmid⟩
              have hj' : ']' ∈ Q.drop j := by
                rw [hmid]
                exact mem_drop_concat (hmid ▸ hj)
              rcases h1 with ⟨w, hw⟩
              exact hrb (by rw [hw]; exact List.mem_append_left _ hj')
            · push_neg at hlen
              have h1 : Starts r (Q.drop j) :=
                starts_starts ⟨_, rfl⟩ h (le_of_lt hlen)
              rcases h1 with ⟨w, hw⟩
              refine hro ⟨Q.take j, w, ?_⟩
              conv_lhs => rw [← List.take_append_drop j Q]
              rw [hw, List.append_assoc]
          · rw [repFuel_cons_keep r hm] at h
            have hdc : Q.drop j = Q.getD j ' ' :: Q.drop (j + 1) :=
              drop_eq_cons _ j hj ' '
            rw [hdc] at h
            rcases h with ⟨v, hv⟩
            have h1 : Q.getD j ' ' = c := (List.cons.inj (by simpa using hv)).1.symm
            have h2 : repFuel a p r n s = Q.drop (j + 1) ++ v :=
              (List.cons.inj (by simpa using hv)).2
            by_cases hj1 : j + 1 < Q.length
            · rcases ih s (j + 1) (Nat.le_of_succ_le_succ hs) hj1 ⟨v, h2⟩ with ⟨w, hw⟩
              exact ⟨w, by rw [hdc, h1, hw]; simp⟩
            · have hd : Q.drop (j + 1) = [] := List.drop_eq_nil_of_le (by omega)
              exact ⟨s, by rw [hdc, hd, h1]; simp⟩

/-- Replacing a `[...]`-shaped token by a bracket-free replacement that does
not occur inside the token eliminates every occurrence of the token. -/
theorem unmask_removes_tok {a : Char} {p r : List Char}
    (hrb1 : '[' ∉ r) (hrb2 : ']' ∉ r) (hro : ¬ Occ r (a :: p))
    (ha : a = '[') (hP : ∃ mid, a :: p = mid ++ [']']) :
    ∀ n s, s.length ≤ n → ¬ Occ (a :: p) (repFuel a p r n s) := by
  intro n
  induction n with
  | zero =>
      intro s hs h
      cases s with
      | nil => exact absurd (occ_nil (by simpa [repFuel_nil] using h)) (by simp)
      | cons c s => simp at hs
  | succ n ih =>
      intro s hs h
      cases s with
      | nil => exact absurd (occ_nil (by simpa [repFuel_nil] using h)) (by simp)
      | cons c s =>
          by_cases hm : startsB (a :: p) (c :: s) = true
          · rw [repFuel_cons_match r hm] at h
            rcases occ_append_split h with h1 | h2 | ⟨q₁, q₂, hqq, hq1, _, ⟨u, hu⟩, _⟩
            · exact hrb1 (ha ▸ occ_subset h1 a (List.mem_cons_self _ _))
            · exact ih _ (drop_fuel_le hs) h2
            · cases q₁ with
              | nil => exact hq1 rfl
              | cons e q₁' =>
                  have he : a = e := (List.cons.inj (by simpa using hqq)).1
                  refine hrb1 ?_
                  rw [hu, ← ha, he]
                  exact List.mem_append_right _ (List.mem_cons_self _ _)
          · rw [repFuel_cons_keep r hm] at h
            rcases occ_cons_elim h with hst | ho
            · rcases hst with ⟨v, hv⟩
              have h1 : a = c := (List.cons.inj (by simpa using hv)).1.symm
              have h2 : repFuel a p r n s = p ++ v := (List.cons.inj (by simpa using hv)).2
              have hstart : Starts (a :: p) (c :: s) := by
                by_cases hpn : p = []
                · subst hpn
                  exact ⟨s, by simp [h1]⟩
                · have hj : (1 : Nat) < (a :: p).length := by
                    have hp0 : p.length ≠ 0 := fun h0 =>
                      hpn (List.eq_nil_of_length_eq_zero h0)
                    simp only [List.length_cons]
                    omega
                  have hdr : (a :: p).drop 1 = p := by simp
                  rcases drop_starts_reflect hrb2 hro hP n s 1
                    (Nat.le_of_succ_le_succ hs) hj (by rw [hdr]; exact ⟨v, h2⟩)
                    with ⟨w, hw⟩
                  rw [hdr] at hw
                  exact ⟨w, by rw [← h1, hw]; simp⟩
              exact hm ((startsB_iff _ _).mpr hstart)
            · exact ih s (Nat.le_of_succ_le_succ hs) ho

/-- Replacing some pattern by a bracket-free replacement cannot create an
occurrence of an absent `[...]`-shaped token `q` (whose replacement-free
shape is `'[' :: ... ++ [']']`), provided the replacement does not occur
inside `q`. -/
theorem tok_not_created {a : Char} {p r q : List Char}
    (hrb1 : '[' ∉ r) (hrb2 : ']' ∉ r) (hro : ¬ Occ r q)
    (hq0 : ∃ q', q = '[' :: q') (hq1 : ∃ mid, q = mid ++ [']']) :
    ∀ n s, s.length ≤ n → ¬ Occ q s → ¬ Occ q (repFuel a p r n s) := by
  rcases hq0 with ⟨q', rfl⟩
  intro n
  induction n with
  | zero =>
      intro s hs _ h
      cases s with
      | nil => exact absurd (occ_nil (by simpa [repFuel_nil] using h)) (by simp)
      | cons c s => simp at hs
  | succ n ih =>
      intro s hs hqs h
      cases s with
      | nil => exact absurd (occ_nil (by simpa [repFuel_nil] using h)) (by simp)
      | cons c s =>
          by_cases hm : startsB (a :: p) (c :: s) = true
          · rw [repFuel_cons_match r hm] at h
            have hdec := starts_decomp hm
            have hqs2 : ¬ Occ ('[' :: q') (s.drop p.length) := fun hh =>
              hqs (by rw [hdec]; exact occ_append_right _ hh)
            rcases occ_append_split h with h1 | h2 | ⟨q₁, q₂, hqq, hq1', _, ⟨u, hu⟩, _⟩
            · exact hrb1 (occ_subset h1 '[' (List.mem_cons_self _ _))
            · exact ih _ (drop_fuel_le hs) hqs2 h2
            · cases q₁ with
              | nil => exact hq1' rfl
              | cons e q₁' =>
                  have he : '[' = e := (List.cons.inj (by simpa using hqq)).1
                  refine hrb1 ?_
                  rw [hu, he]
                  exact List.mem_append_right _ (List.mem_cons_self _ _)
          · rw [repFuel_cons_keep r hm] at h
            rcases occ_cons_elim h with hst | ho
            · rcases hst with ⟨v, hv⟩
              have h1 : '[' = c := (List.cons.inj (by simpa using hv)).1.symm
              have h2 : repFuel a p r n s = q' ++ v := (List.cons.inj (by simpa using hv)).2
              have hstart : Starts ('[' :: q') (c :: s) := by
                by_cases hqn : q' = []
                · subst hqn
                  exfalso
                  rcases hq1 with ⟨mid, hmid⟩
                  cases mid with
                  | nil => exact absurd hmid (by decide)
                  | cons m ms =>
                      have hlen := congrArg List.length hmid
                      simp only [List.length_cons, List.length_append,
                        List.length_nil] at hlen
                      omega
                · have hj : (1 : Nat) < ('[' :: q').length := by
                    have hq0' : q'.length ≠ 0 := fun h0 =>
                      hqn (List.eq_nil_of_length_eq_zero h0)
                    simp only [List.length_cons]
                    omega
                  have hdr : ('[' :: q').drop 1 = q' := by simp
                  rcases drop_starts_reflect (Q := '[' :: q') hrb2 hro hq1 n s 1
                    (Nat.le_of_succ_le_succ hs) hj (by rw [hdr]; exact ⟨v, h2⟩)
                    with ⟨w, hw⟩
                  rw [hdr] at hw
                  exact ⟨w, by rw [← h1, hw]; simp⟩
              exact hqs (starts_occ hstart)
            · exact ih s (Nat.le_of_succ_le_succ hs)
                (fun hh => hqs (occ_cons c hh)) ho

/-- Character-level conflict between pattern `a :: p` and every alignment
inside `q`: at every start offset `k` within `q` there is a position where
the two disagree. -/
def NoAlign (a : Char) (p q : List Char) : Prop :=
  ∀ k, k < q.length → ∃ m, m < (a :: p).length ∧ k + m < q.length ∧
    (a :: p).getD m ' ' ≠ q.getD (k + m) ' '

instance (a : Char) (p q : List Char) : Decidable (NoAlign a p q) := by
  unfold NoAlign
  infer_instance

/-- A tail of `q` present in the input stays present in the output when the
pattern conflicts with every alignment inside `q`. -/
theorem pres_starts {a : Char} {p r q : List Char} (hconf : NoAlign a p q) :
    ∀ n s k, s.length ≤ n → k < q.length →
      Starts (q.drop k) s → Starts (q.drop k) (repFuel a p r n s) := by
  intro n
  induction n with
  | zero =>
      intro s k hs _ h
      cases s with
      | nil => simpa [repFuel_nil] using h
      | cons c s => simp at hs
  | succ n ih =>
      intro s k hs hk h
      cases s with
      | nil => simpa [repFuel_nil] using h
      | cons c s =>
          by_cases hm : startsB (a :: p) (c :: s) = true
          · exfalso
            have hPst : Starts (a :: p) (c :: s) := (startsB_iff _ _).mp hm
            rcases hconf k hk with ⟨m, hm1, hm2, hne⟩
            have e1 : (c :: s).getD m ' ' = (a :: p).getD m ' ' := starts_getD hPst hm1 ' '
            have e2 : (c :: s).getD m ' ' = (q.drop k).getD m ' ' :=
              starts_getD h (by rw [List.length_drop]; omega) ' '
            rw [getD_drop] at e2
            exact hne (e1.symm.trans e2)
          · rw [repFuel_cons_keep r hm]
            have hdc : q.drop k = q.getD k ' ' :: q.drop (k + 1) := drop_eq_cons _ k hk ' '
            rw [hdc] at h ⊢
            rcases h with ⟨v, hv⟩
            have h1 : q.getD k ' ' = c := (List.cons.inj (by simpa using hv)).1.symm
            have h2 : s = q.drop (k + 1) ++ v := (List.cons.inj (by simpa using hv)).2
            by_cases hk1 : k + 1 < q.length
            · rcases ih s (k + 1) (Nat.le_of_succ_le_succ hs) hk1 ⟨v, h2⟩ with ⟨w, hw⟩
              exact ⟨w, by rw [h1, hw]; simp⟩
            · have hd : q.drop (k + 1) = [] := List.drop_eq_nil_of_le (by omega)
              exact ⟨repFuel a p r n s, by rw [h1, hd]; simp⟩

/-- Occurrences of `q` are preserved by replacement when the pattern cannot
overlap an occurrence of `q` in any way. -/
theorem pres_occ {a : Char} {p r q : List Char} (hconf : NoAlign a p q)
    (hqP : ¬ Occ q (a :: p))
    (hstr : ∀ j, j < (a :: p).length → ¬ Starts ((a :: p).drop j) q) :
    ∀ n s, s.length ≤ n → Occ q s → Occ q (repFuel a p r n s) := by
  intro n
  induction n with
  | zero =>
      intro s hs h
      cases s with
      | nil => simpa [repFuel_nil] using h
      | cons c s => simp at hs
  | succ n ih =>
      intro s hs h
      cases s with
      | nil => simpa [repFuel_nil] using h
      | cons c s =>
          by_cases hm : startsB (a :: p) (c :: s) = true
          · rw [repFuel_cons_match r hm]
            have hdec := starts_decomp hm
            rw [hdec] at h
            rcases occ_append_split h with h1 | h2 | ⟨q₁, q₂, hqq, hq1, _, ⟨u, hu⟩, _⟩
            · exact absurd h1 hqP
            · exact occ_append_right r (ih _ (drop_fuel_le hs) h2)
            · exfalso
              have hlq : 1 ≤ q₁.length := by
                cases q₁ with
                | nil => exact absurd rfl hq1
                | cons _ _ => simp
              have hdrop : (a :: p).drop u.length = q₁ := by rw [hu, List.drop_left]
              have hju : u.length < (a :: p).length := by
                have hlen := congrArg List.length hu
                rw [List.length_append] at hlen
                omega
              exact hstr u.length hju (by rw [hdrop]; exact ⟨q₂, hqq⟩)
          · rw [repFuel_cons_keep r hm]
            rcases occ_cons_elim h with hst | ho
            · by_cases hqnil : q = []
              · exact ⟨[], c :: repFuel a p r n s, by simp [hqnil]⟩
              · have hk : 0 < q.length := List.length_pos.mpr hqnil
                have hps := pres_starts (r := r) hconf (n + 1) (c :: s) 0 hs hk
                  (by simpa using hst)
                rw [repFuel_cons_keep r hm] at hps
                exact starts_occ (by simpa using hps)
            · exact occ_cons c (ih s (Nat.le_of_succ_le_succ hs) ho)

/-- Whenever the pattern occurs, the replacement occurs in the output. -/
theorem rep_inserts {a : Char} {p : List Char} (r : List Char) :
    ∀ n s, s.length ≤ n → Occ (a :: p) s → Occ r (repFuel a p r n s) := by
  intro n
  induction n with
  | zero =>
      intro s hs h
      cases s with
      | nil => exact absurd (occ_nil h) (by simp)
      | cons c s => simp at hs
  | succ n ih =>
      intro s hs h
      cases s with
      | nil => exact absurd (occ_nil h) (by simp)
      | cons c s =>
          by_cases hm : startsB (a :: p) (c :: s) = true
          · rw [repFuel_cons_match r hm]
            exact ⟨[], repFuel a p r n (s.drop p.length), by simp⟩
          · rw [repFuel_cons_keep r hm]
            rcases occ_cons_elim h with hst | ho
            · exact absurd ((startsB_iff _ _).mpr hst) hm
            · exact occ_cons c (ih s (Nat.le_of_succ_le_succ hs) ho)

/-!
Embedding of `src/main.py`.

Strings are `List Char`.  The Streamlit session dictionary entry
`user_info` is modelled as `Option SessionInfo` (absent key = `none`);
its own keys may individually be missing, hence `Option` fields
(`main` initialises `user_info` to the empty dict `{}` when the key is
absent, which is `some ⟨none, none, none⟩` here).
-/

/-- `BASE_URL` from the configuration block. -/
def BASE_URL : List Char := "https://www.occamsadvisory.com/".toList

/-- The `[NAME]` placeholder token. -/
def nameTok : List Char := ['[', 'N', 'A', 'M', 'E', ']']

/-- The `[EMAIL]` placeholder token. -/
def emailTok : List Char := ['[', 'E', 'M', 'A', 'I', 'L', ']']

/-- The `[PHONE]` placeholder token. -/
def phoneTok : List Char := ['[', 'P', 'H', 'O', 'N', 'E', ']']

/-- The Streamlit `st.session_state.user_info` dictionary: each of the
three keys may be present or absent. -/
structure SessionInfo where
  name? : Option (List Char)
  email? : Option (List Char)
  phone? : Option (List Char)

/-- Python `info.get(key, "")`. -/
def getStr (o : Option (List Char)) : List Char := o.getD []

/-- `mask_pii` from `main`: if `user_info` is in the session state, replace
the profile's name, email and phone (in that order) by the placeholder
tokens; otherwise return the text unchanged. -/
def mask_pii (sess : Option SessionInfo) (text : List Char) : List Char :=
  match sess with
  | none => text
  | some info =>
      pyReplace
        (pyReplace
          (pyReplace text (getStr info.name?) nameTok)
          (getStr info.email?) emailTok)
        (getStr info.phone?) phoneTok

/-- The per-query pipeline state (`class State(dict)`): keys are set
progressively, so each optional key is an `Option`. -/
structure QState where
  question : List Char
  route : Option (List Char) := none
  context : Option (List Char) := none
  answer : Option (List Char) := none

/-- Python exceptions that can escape the embedded fragments. -/
inductive PyErr where
  | keyError
  | fileNotFound
deriving DecidableEq

/-- `router_node`: unconditionally routes to retrieval. -/
def router_node (st : QState) : QState :=
  { st with route := some "RETRIEVAL".toList }

/-- Python `"\n".join(ds)`. -/
def joinNL : List (List Char) → List Char
  | [] => []
  | [d] => d
  | d :: ds => d ++ '\n' :: joinNL ds

/-- `retrieval_node`: retrieve with the masked question; `context` is the
newline-join of the page contents if any documents came back, and Python
`None` (here `Option.none`) otherwise. -/
def retrieval_node (retr : List Char → List (List Char)) (sess : Option SessionInfo)
    (st : QState) : QState :=
  let docs := retr (mask_pii sess st.question)
  { st with context := if docs = [] then none else some (joinNL docs) }

/-- The fixed instruction template of `output_node`, up to the interpolated
context. -/
def promptPre : List Char :=
  ("\n            You are an AI Assistantrepresenting Occams Advisory.\n        Using the following context, provide a clear, structured answer to the user.\n        When answering, speak in first-person as the company (\"we\", \"our\").\n        Be friendly, professional, and concise.\n        Rules:\n           -If the user greets with (eg. \"hi\",\"hello\",\"hey\"), reply with a warm greeting and suggest \n            what they can ask about (services, careers, contact info).\n           -If the user greets + asks a real question (e.g., \"Hi, I want to know about your company\"), \n            combine both: start with a greeting and then answer their question.\n           -If the user asks something unrelated to the knowledge base, reply: \n            \"❌ Sorry, I don’t know the answer based on our data.\"\n           - Do NOT say \"based on the provided context\" or similar phrases.\n           - Just answer directly like a human from the company would.\n           - Do not include any generic signatures, disclaimers, or placeholders like [Your Name] \n             or [Your Position]\n\n            Context:\n            ").toList

/-- The template between the interpolated context and question. -/
def promptMid : List Char := "\n            Question:\n            ".toList

/-- The template after the interpolated question. -/
def promptPost : List Char := "\n            ".toList

/-- A Python f-string renders `None` as the four characters `None`. -/
def strOfCtx : Option (List Char) → List Char
  | none => "None".toList
  | some c => c

/-- The full generation prompt of `output_node`. -/
def buildPrompt (ctx : Option (List Char)) (q : List Char) : List Char :=
  promptPre ++ strOfCtx ctx ++ promptMid ++ q ++ promptPost

/-- The fixed unavailability message of the `except` branch. -/
def unavailMsg : List Char := "⚠️ AI assistant is temporarily unavailable.".toList

/-- `answer.replace("[NAME]", name)` — the reverse masking step applied to
the model reply (the spec's `unmask_name`). -/
def unmask_name (nm t : List Char) : List Char := pyReplace t nameTok nm

/-- `output_node`: mask the prompt, invoke the model inside `try`, replace
any exception by the fixed unavailability message, then (outside the
`try`) un-mask `[NAME]` using `user_info["name"]` when a `user_info`
entry exists — a lookup that raises `KeyError` when the `name` key is
missing. -/
def output_node (llm : List Char → Except Unit (List Char)) (sess : Option SessionInfo)
    (st : QState) : Except PyErr QState :=
  let ans :=
    match llm (mask_pii sess (buildPrompt st.context st.question)) with
    | Except.ok a => a
    | Except.error _ => unavailMsg
  match sess with
  | none => Except.ok { st with answer := some ans }
  | some info =>
      match info.name? with
      | some nm => Except.ok { st with answer := some (unmask_name nm ans) }
      | none => Except.error PyErr.keyError

/-- The compiled LangGraph pipeline: router → retrieval → output. -/
def run_pipeline (retr : List Char → List (List Char))
    (llm : List Char → Except Unit (List Char)) (sess : Option SessionInfo)
    (q : List Char) : Except PyErr QState :=
  output_node llm sess (retrieval_node retr sess (router_node { question := q }))

/-! Ingestion: scraper, chunker, embedding index (STEP 1 - STEP 3). -/

/-- Keys of the JSON records written to `knowledge.json`. -/
def contentKey : List Char := "content".toList

/-- The second key of a knowledge record (the code writes `url`). -/
def urlKey : List Char := "url".toList

/-- A JSON object, as an ordered key/value association list. -/
abbrev JRec := List (List Char × List Char)

/-- The record `data.append({...})` builds for one text block. -/
def mkEntry (t : List Char) : JRec := [(contentKey, t), (urlKey, BASE_URL)]

/-- Python `rec[key]` on a JSON object, as an `Option`. -/
def lookupKey : JRec → List Char → Option (List Char)
  | [], _ => none
  | (k, v) :: m, key => if k = key then some v else lookupKey m key

/-- The `content` field of a knowledge record (defaulting to `""`). -/
def contentOf (e : JRec) : List Char := (lookupKey e contentKey).getD []

/-- Membership of a text in the `seen_text` set. -/
def memB (t : List Char) : List (List Char) → Bool
  | [] => false
  | s :: ss => if t = s then true else memB t ss

/-- The selector/filter/dedup loop of `scrape_occams`: iterate over the
extracted text blocks in selector-then-document order, keeping a block if
it is non-empty (`if text`), longer than 30 characters, and not seen yet. -/
def scrapeGo (seen : List (List Char)) : List (List Char) → List JRec
  | [] => []
  | t :: ts =>
      if t ≠ [] ∧ 30 < t.length ∧ memB t seen = false then
        mkEntry t :: scrapeGo (t :: seen) ts
      else scrapeGo seen ts

/-- The knowledge list `scrape_occams` persists, given the stripped text
blocks of all selector matches in selector-then-document order. -/
def buildKnowledge (texts : List (List Char)) : List JRec := scrapeGo [] texts

/-- The chunk list of `make_chunks`: `[entry["content"] for entry in ks]`
(`KeyError` if a record lacks the key). -/
def chunksOf : List JRec → Except PyErr (List (List Char))
  | [] => Except.ok []
  | e :: es =>
      match lookupKey e contentKey with
      | some c => (chunksOf es).map fun cs => c :: cs
      | none => Except.error PyErr.keyError

/-- The on-disk artifact state: `knowledge.json`, `chunks.json` and the
`faiss_index` directory, each possibly absent. -/
structure FS where
  knowledge : Option (List JRec)
  chunks : Option (List (List Char))
  index : Option (List (List Char))

/-- Externally observable work done by a build stage. -/
structure Effects where
  network : Nat
  embedCalls : Nat
  writes : Nat
deriving DecidableEq

/-- No externally observable work. -/
def noEff : Effects := ⟨0, 0, 0⟩

def addEff (e₁ e₂ : Effects) : Effects :=
  ⟨e₁.network + e₂.network, e₁.embedCalls + e₂.embedCalls, e₁.writes + e₂.writes⟩

/-- `scrape_occams`: return immediately if `knowledge.json` exists;
otherwise drive the browser (one network session), build the knowledge
list from the page's text blocks, and write the artifact. -/
def scrape_occams (page : List (List Char)) (fs : FS) : FS × Effects :=
  if fs.knowledge.isSome then (fs, noEff)
  else ({ fs with knowledge := some (buildKnowledge page) }, ⟨1, 0, 1⟩)

/-- `make_chunks`: return immediately if `chunks.json` exists; otherwise
read `knowledge.json` (`FileNotFoundError` if absent) and write the chunk
list. -/
def make_chunks (fs : FS) : Except PyErr (FS × Effects) :=
  if fs.chunks.isSome then Except.ok (fs, noEff)
  else
    match fs.knowledge with
    | none => Except.error PyErr.fileNotFound
    | some ks =>
        (chunksOf ks).map fun cs => ({ fs with chunks := some cs }, ⟨0, 0, 1⟩)

/-- `build_embeddings`: return immediately if the vector-store directory
exists; otherwise read `chunks.json`, embed every chunk and persist the
index. -/
def build_embeddings (embed : List Char → List Char) (fs : FS) :
    Except PyErr (FS × Effects) :=
  if fs.index.isSome then Except.ok (fs, noEff)
  else
    match fs.chunks with
    | none => Except.error PyErr.fileNotFound
    | some cs => Except.ok ({ fs with index := some (cs.map embed) }, ⟨0, cs.length, 1⟩)

/-- The preprocessing block of `main`: scrape, chunk, embed, in order. -/
def run_ingestion (page : List (List Char)) (embed : List Char → List Char)
    (fs : FS) : Except PyErr (FS × Effects) := do
  let (fs₁, e₁) := scrape_occams page fs
  let (fs₂, e₂) ← make_chunks fs₁
  let (fs₃, e₃) ← build_embeddings embed fs₂
  return (fs₃, addEff (addEff e₁ e₂) e₃)

/-! Chat-history persistence (`load_chat` / `save_chat`). -/

/-- One chat turn, as the `{"user": ..., "ai": ...}` pair. -/
abbrev ChatHist := List (List Char × List Char)

/-- `chat_history.json`: a JSON object mapping user emails to histories. -/
abbrev ChatStore := List (List Char × ChatHist)

/-- Python `all_history.get(email, default-miss)`. -/
def lookupChat : ChatStore → List Char → Option ChatHist
  | [], _ => none
  | (k, v) :: m, key => if k = key then some v else lookupChat m key

/-- Python `all_history[email] = history` on a dict (update in place if the
key exists, else append; dict keys are unique). -/
def setChat : ChatStore → List Char → ChatHist → ChatStore
  | [], key, h => [(key, h)]
  | (k, v) :: m, key, h =>
      if k = key then (key, h) :: m else (k, v) :: setChat m key h

/-- `load_chat`: `[]` when `chat_history.json` is absent, else
`all_history.get(user_email, [])`. -/
def load_chat (store : Option ChatStore) (email : List Char) : ChatHist :=
  match store with
  | none => []
  | some m => (lookupChat m email).getD []

/-- `save_chat`: read the whole store (or `\x7b\x7d` if absent), set the
user's entry, write the store back. -/
def save_chat (store : Option ChatStore) (email : List Char) (h : ChatHist) :
    Option ChatStore :=
  some (setChat (match store with | none => [] | some m => m) email h)

/-! Support lemmas connecting the embedding to the replacement theory. -/

theorem nameTok_shape : ∃ mid, nameTok = '[' :: mid ++ [']'] :=
  ⟨['N', 'A', 'M', 'E'], rfl⟩

theorem emailTok_shape : ∃ mid, emailTok = '[' :: mid ++ [']'] :=
  ⟨['E', 'M', 'A', 'I', 'L'], rfl⟩

theorem phoneTok_shape : ∃ mid, phoneTok = '[' :: mid ++ [']'] :=
  ⟨['P', 'H', 'O', 'N', 'E'], rfl⟩

theorem nameTok_concat : ∃ mid, nameTok = mid ++ [']'] :=
  ⟨['[', 'N', 'A', 'M', 'E'], rfl⟩

theorem emailTok_concat : ∃ mid, emailTok = mid ++ [']'] :=
  ⟨['[', 'E', 'M', 'A', 'I', 'L'], rfl⟩

theorem phoneTok_concat : ∃ mid, phoneTok = mid ++ [']'] :=
  ⟨['[', 'P', 'H', 'O', 'N', 'E'], rfl⟩

/-- A profile field for which the placeholder scheme is sound: non-empty,
bracket-free, and not a fragment of any placeholder token. -/
def NiceField (f : List Char) : Prop :=
  f ≠ [] ∧ '[' ∉ f ∧ ']' ∉ f ∧
    ¬ Occ f nameTok ∧ ¬ Occ f emailTok ∧ ¬ Occ f phoneTok

instance (f : List Char) : Decidable (NiceField f) := by
  unfold NiceField
  infer_instance

theorem pyReplace_removes {f r s : List Char}
    (hf : f ≠ []) (hb1 : '[' ∉ f) (hb2 : ']' ∉ f) (hfr : ¬ Occ f r)
    (hr : ∃ mid, r = '[' :: mid ++ [']']) : ¬ Occ f (pyReplace s f r) := by
  cases f with
  | nil => exact absurd rfl hf
  | cons a p => exact rep_removes hb1 hb2 hfr hr s.length s (le_refl _)

theorem pyReplace_keeps {f r q s : List Char} (hf : f ≠ [])
    (hq : q ≠ []) (hb1 : '[' ∉ q) (hb2 : ']' ∉ q) (hqr : ¬ Occ q r)
    (hr : ∃ mid, r = '[' :: mid ++ [']']) (hs : ¬ Occ q s) :
    ¬ Occ q (pyReplace s f r) := by
  cases f with
  | nil => exact absurd rfl hf
  | cons a p => exact rep_keeps_absent hq hb1 hb2 hqr hr s.length s (le_refl _) hs

theorem pyReplace_id_of_no_occ {old : List Char} (hold : old ≠ []) {s : List Char}
    (h : ¬ Occ old s) (r : List Char) : pyReplace s old r = s := by
  cases old with
  | nil => exact absurd rfl hold
  | cons a p => exact rep_id_of_no_occ r s.length s (le_refl _) h

/-! Claim theorems. -/

/-- Claim C1, amended.  For every active user profile whose name, email and
phone fields are non-empty, contain neither `[` nor `]`, and do not occur as
substrings of the placeholder tokens `[NAME]`, `[EMAIL]`, `[PHONE]`, and for
every text: `mask` replaces the profile's name, email and phone with the
tokens in the order name then email then phone (first conjunct), the masked
text contains no occurrence of the original field values, and `unmask_name`
applied to the masked output replaces only `[NAME]` back with the profile's
name — no `[NAME]` remains, the name reappears wherever a `[NAME]` stood —
leaving every `[EMAIL]` and `[PHONE]` token unchanged (such a token occurs
in the unmasked text iff it occurred in the masked text).  (The original
claim, quantified over all non-empty profiles, is refuted by
`C1_mask_roundtrip_cex`.) -/
theorem C1_mask_roundtrip (nm em ph : List Char)
    (hn : NiceField nm) (he : NiceField em) (hp : NiceField ph) (t : List Char) :
    mask_pii (some ⟨some nm, some em, some ph⟩) t
      = pyReplace (pyReplace (pyReplace t nm nameTok) em emailTok) ph phoneTok ∧
    ∀ M, M = mask_pii (some ⟨some nm, some em, some ph⟩) t →
      (¬ Occ nm M ∧ ¬ Occ em M ∧ ¬ Occ ph M) ∧
      ¬ Occ nameTok (unmask_name nm M) ∧
      (Occ nameTok M → Occ nm (unmask_name nm M)) ∧
      (Occ emailTok M ↔ Occ emailTok (unmask_name nm M)) ∧
      (Occ phoneTok M ↔ Occ phoneTok (unmask_name nm M)) := by
  obtain ⟨hn1, hn2, hn3, hn4, hn5, hn6⟩ := hn
  obtain ⟨he1, he2, he3, he4, he5, he6⟩ := he
  obtain ⟨hp1, hp2, hp3, hp4, hp5, hp6⟩ := hp
  refine ⟨rfl, ?_⟩
  rintro M rfl
  have hno_nm1 : ¬ Occ nm (pyReplace t nm nameTok) :=
    pyReplace_removes hn1 hn2 hn3 hn4 nameTok_shape
  have hno_nm2 : ¬ Occ nm (pyReplace (pyReplace t nm nameTok) em emailTok) :=
    pyReplace_keeps he1 hn1 hn2 hn3 hn5 emailTok_shape hno_nm1
  have hno_nm3 : ¬ Occ nm
      (pyReplace (pyReplace (pyReplace t nm nameTok) em emailTok) ph phoneTok) :=
    pyReplace_keeps hp1 hn1 hn2 hn3 hn6 phoneTok_shape hno_nm2
  have hno_em2 : ¬ Occ em (pyReplace (pyReplace t nm nameTok) em emailTok) :=
    pyReplace_removes he1 he2 he3 he5 emailTok_shape
  have hno_em3 : ¬ Occ em
      (pyReplace (pyReplace (pyReplace t nm nameTok) em emailTok) ph phoneTok) :=
    pyReplace_keeps hp1 he1 he2 he3 he6 phoneTok_shape hno_em2
  have hno_ph3 : ¬ Occ ph
      (pyReplace (pyReplace (pyReplace t nm nameTok) em emailTok) ph phoneTok) :=
    pyReplace_removes hp1 hp2 hp3 hp6 phoneTok_shape
  refine ⟨⟨hno_nm3, hno_em3, hno_ph3⟩, ?_, ?_, ?_, ?_⟩
  · exact unmask_removes_tok (a := '[') (p := ['N', 'A', 'M', 'E', ']']) (r := nm)
      hn2 hn3 hn4 rfl nameTok_concat _ _ (le_refl _)
  · intro hocc
    exact rep_inserts (a := '[') (p := ['N', 'A', 'M', 'E', ']']) nm _ _
      (le_refl _) hocc
  · constructor
    · intro hocc
      exact pres_occ (a := '[') (p := ['N', 'A', 'M', 'E', ']']) (r := nm)
        (q := emailTok) (by decide) (by decide) (by decide) _ _ (le_refl _) hocc
    · intro hocc'
      by_contra hno
      exact tok_not_created (a := '[') (p := ['N', 'A', 'M', 'E', ']'])
        hn2 hn3 hn5 ⟨_, rfl⟩ emailTok_concat _ _ (le_refl _) hno hocc'
  · constructor
    · intro hocc
      exact pres_occ (a := '[') (p := ['N', 'A', 'M', 'E', ']']) (r := nm)
        (q := phoneTok) (by decide) (by decide) (by decide) _ _ (le_refl _) hocc
    · intro hocc'
      by_contra hno
      exact tok_not_created (a := '[') (p := ['N', 'A', 'M', 'E', ']'])
        hn2 hn3 hn6 ⟨_, rfl⟩ phoneTok_concat _ _ (le_refl _) hno hocc'

/-- Claim C1, counterexample to the original statement: for the non-empty
profile with name `NAME`, masking the text `NAME` yields `[NAME]`, which
still contains the original name as a substring. -/
theorem C1_mask_roundtrip_cex :
    Occ "NAME".toList
      (mask_pii
        (some ⟨some "NAME".toList, some "a@x.com".toList, some "5551234".toList⟩)
        "NAME".toList) := by
  decide

/-- Claim C1, witness at the spec's example profile. -/
theorem C1_mask_roundtrip_witness :
    ¬ Occ "Ana Li".toList
      (mask_pii
        (some ⟨some "Ana Li".toList, some "ana@x.com".toList, some "5551234".toList⟩)
        "Ana Li ana@x.com 5551234".toList) :=
  (((C1_mask_roundtrip "Ana Li".toList "ana@x.com".toList "5551234".toList
      (by decide) (by decide) (by decide)
      "Ana Li ana@x.com 5551234".toList).2 _ rfl).1).1

/-- Shapes the session can take in `main`: either the `user_info` key is
absent, or onboarding filled all three fields (`st.session_state.user_info =
new_user` with validated name/email/phone). -/
def SessionShape (sess : Option SessionInfo) : Prop :=
  sess = none ∨ ∃ nm em ph, sess = some ⟨some nm, some em, some ph⟩

/-- Claim C2, amended.  `mask` is the identity exactly when the session
state has no `user_info` entry at all.  When no session is completed but
`main` has already initialised `user_info` to the empty dict (lines
190-191), `mask` is never the identity: Python's empty-pattern
`str.replace` interleaves `[NAME]`, `[EMAIL]` and `[PHONE]` around every
character of the text.  (The original claim is refuted by
`C2_mask_identity_cex`.) -/
theorem C2_mask_identity (t : List Char) :
    mask_pii none t = t ∧ mask_pii (some ⟨none, none, none⟩) t ≠ t := by
  refine ⟨rfl, ?_⟩
  intro h
  have hm : mask_pii (some ⟨none, none, none⟩) t
      = emptyIns phoneTok (emptyIns emailTok (emptyIns nameTok t)) := rfl
  have hlen := congrArg List.length h
  rw [hm, emptyIns_length, emptyIns_length, emptyIns_length] at hlen
  have h6 : nameTok.length = 6 := rfl
  have h7 : emailTok.length = 7 := rfl
  have h8 : phoneTok.length = 7 := rfl
  rw [h6, h7, h8] at hlen
  omega

/-- Claim C2, counterexample to the original statement: with no completed
session (the empty `user_info` record installed by `main`), `mask` is not
the identity on `"hi"`. -/
theorem C2_mask_identity_cex :
    mask_pii (some ⟨none, none, none⟩) ['h', 'i'] ≠ ['h', 'i'] := by
  decide

/-- Claim C2, witness of the amended statement at the text `"hi"`. -/
theorem C2_mask_identity_witness :
    mask_pii none ['h', 'i'] = ['h', 'i'] ∧
      mask_pii (some ⟨none, none, none⟩) ['h', 'i'] ≠ ['h', 'i'] :=
  C2_mask_identity ['h', 'i']

/-- Claim C3.  For every session of a shape `main` can produce and every
query, the pipeline terminates with an `answer` string; and when the model
invocation raises, the exception is caught locally and the final answer is
exactly the fixed unavailability message (the `[NAME]` un-masking step
leaves it untouched, since the message contains no `[NAME]`). -/
theorem C3_generation_failure (retr : List Char → List (List Char))
    (llm : List Char → Except Unit (List Char)) (sess : Option SessionInfo)
    (q : List Char) (hs : SessionShape sess) :
    (∃ st, run_pipeline retr llm sess q = Except.ok st ∧ st.answer.isSome = true) ∧
    ((∀ prompt, llm prompt = Except.error ()) →
      ∃ st, run_pipeline retr llm sess q = Except.ok st ∧
        st.answer = some unavailMsg) := by
  rcases hs with rfl | ⟨nm, em, ph, rfl⟩
  · refine ⟨⟨_, rfl, rfl⟩, ?_⟩
    intro herr
    have hred : run_pipeline retr llm none q = Except.ok
        { retrieval_node retr none (router_node { question := q }) with
          answer := some unavailMsg } := by
      unfold run_pipeline output_node
      rw [herr]
    exact ⟨_, hred, rfl⟩
  · refine ⟨⟨_, rfl, rfl⟩, ?_⟩
    intro herr
    have hid : unmask_name nm unavailMsg = unavailMsg :=
      pyReplace_id_of_no_occ (by decide) (by decide) nm
    have hred : run_pipeline retr llm (some ⟨some nm, some em, some ph⟩) q
        = Except.ok
          { retrieval_node retr (some ⟨some nm, some em, some ph⟩)
              (router_node { question := q }) with
            answer := some (unmask_name nm unavailMsg) } := by
      unfold run_pipeline output_node
      rw [herr]
    rw [hid] at hred
    exact ⟨_, hred, rfl⟩

/-- Claim C3, witness: a model that always raises, no session. -/
theorem C3_generation_failure_witness :
    ∃ st, run_pipeline (fun _ => []) (fun _ => Except.error ()) none
        "hi".toList = Except.ok st ∧ st.answer = some unavailMsg :=
  (C3_generation_failure (fun _ => []) (fun _ => Except.error ()) none
    "hi".toList (Or.inl rfl)).2 (fun _ => rfl)

/-- Claim C4.  When the retriever returns no documents, the Retrieval stage
sets `context` to the explicit sentinel `None` (here `Option.none`), which
is not a string at all — in particular distinct from the empty string and
from every newline-join of retrieved content. -/
theorem C4_no_context_sentinel (retr : List Char → List (List Char))
    (sess : Option SessionInfo) (st : QState)
    (h : retr (mask_pii sess st.question) = []) :
    (retrieval_node retr sess st).context = none ∧
      (∀ s : List Char, (none : Option (List Char)) ≠ some s) := by
  refine ⟨?_, fun s hs => Option.noConfusion hs⟩
  simp [retrieval_node, h]

/-- Claim C4, witness: an empty retriever. -/
theorem C4_no_context_sentinel_witness :
    (retrieval_node (fun _ => []) none { question := "hi".toList }).context
        = none ∧
      (∀ s : List Char, (none : Option (List Char)) ≠ some s) :=
  C4_no_context_sentinel (fun _ => []) none { question := "hi".toList } rfl

/-- Claim C5.  When `knowledge.json`, `chunks.json` and the vector-store
directory all exist, the ingestion pipeline performs no network, embedding
or file-writing work and leaves every artifact unchanged: each stage
returns at its existence guard. -/
theorem C5_idempotent_build (page : List (List Char))
    (embed : List Char → List Char) (fs : FS)
    (h1 : fs.knowledge.isSome = true) (h2 : fs.chunks.isSome = true)
    (h3 : fs.index.isSome = true) :
    run_ingestion page embed fs = Except.ok (fs, noEff) := by
  obtain ⟨ok, oc, oi⟩ := fs
  obtain ⟨k, rfl⟩ := Option.isSome_iff_exists.mp h1
  obtain ⟨c, rfl⟩ := Option.isSome_iff_exists.mp h2
  obtain ⟨i, rfl⟩ := Option.isSome_iff_exists.mp h3
  rfl

/-- Claim C5, witness: all three artifacts present. -/
theorem C5_idempotent_build_witness :
    run_ingestion [] id ⟨some [], some [], some []⟩
      = Except.ok ((⟨some [], some [], some []⟩ : FS), noEff) :=
  C5_idempotent_build [] id ⟨some [], some [], some []⟩ rfl rfl rfl

/-- The length/non-emptiness filter of the scraper loop, as a predicate on
one text block. -/
def goodB (t : List Char) : Bool := decide (t ≠ []) && decide (30 < t.length)

/-- Keep the first occurrence of every value, in order (the spec's
deduplication policy, stated directly). -/
def firstKeep : List (List Char) → List (List Char)
  | [] => []
  | t :: ts => t :: firstKeep (ts.filter fun x => decide (x ≠ t))
termination_by l => l.length
decreasing_by
  simp only [List.length_cons]
  exact Nat.lt_succ_of_le (List.length_filter_le _ _)

theorem contentOf_mkEntry (t : List Char) : contentOf (mkEntry t) = t := by
  simp [contentOf, mkEntry, lookupKey]

theorem memB_iff (t : List Char) : ∀ l, memB t l = true ↔ t ∈ l := by
  intro l
  induction l with
  | nil => simp [memB]
  | cons s ss ih =>
      simp only [memB]
      by_cases h : t = s
      · simp [h]
      · simp [h, ih]

/-- The invariant of the scraper loop: nothing already seen is emitted, and
emitted contents are pairwise distinct. -/
theorem scrapeGo_distinct : ∀ ts seen : List (List Char),
    (∀ e ∈ scrapeGo seen ts, contentOf e ∉ seen) ∧
      (scrapeGo seen ts).Pairwise (fun e₁ e₂ => contentOf e₁ ≠ contentOf e₂) := by
  intro ts
  induction ts with
  | nil => intro seen; simp [scrapeGo]
  | cons t ts ih =>
      intro seen
      by_cases h : t ≠ [] ∧ 30 < t.length ∧ memB t seen = false
      · have hunf : scrapeGo seen (t :: ts) = mkEntry t :: scrapeGo (t :: seen) ts := by
          simp only [scrapeGo]
          rw [if_pos h]
        have htseen : t ∉ seen := fun hmem =>
          by rw [(memB_iff t seen).mpr hmem] at h; exact absurd h.2.2 (by simp)
        rw [hunf]
        constructor
        · intro e he
          rcases List.mem_cons.mp he with rfl | he'
          · rw [contentOf_mkEntry]; exact htseen
          · exact fun hmem =>
              (ih (t :: seen)).1 e he' (List.mem_cons_of_mem _ hmem)
        · refine List.Pairwise.cons ?_ (ih (t :: seen)).2
          intro e he
          rw [contentOf_mkEntry]
          have := (ih (t :: seen)).1 e he
          intro heq
          exact this (heq ▸ List.mem_cons_self _ _)
      · have hunf : scrapeGo seen (t :: ts) = scrapeGo seen ts := by
          simp only [scrapeGo]
          rw [if_neg h]
        rw [hunf]
        exact ih seen

/-- The scraper loop, as a filter followed by keep-first deduplication. -/
theorem scrapeGo_firstKeep : ∀ ts seen : List (List Char),
    (scrapeGo seen ts).map contentOf
      = firstKeep (ts.filter fun t => goodB t && !(memB t seen)) := by
  intro ts
  induction ts with
  | nil => intro seen; simp [scrapeGo, firstKeep]
  | cons t ts ih =>
      intro seen
      by_cases h : t ≠ [] ∧ 30 < t.length ∧ memB t seen = false
      · have hunf : scrapeGo seen (t :: ts) = mkEntry t :: scrapeGo (t :: seen) ts := by
          simp only [scrapeGo]
          rw [if_pos h]
        have hpred : (goodB t && !(memB t seen)) = true := by
          simp [goodB, h.1, h.2.1, h.2.2]
        have hfc : (t :: ts).filter (fun x => goodB x && !(memB x seen))
            = t :: ts.filter (fun x => goodB x && !(memB x seen)) := by
          simp [List.filter_cons, hpred]
        rw [hunf, List.map_cons, contentOf_mkEntry, ih (t :: seen), hfc,
          firstKeep, List.filter_filter]
        congr 1
        refine congrArg firstKeep (List.filter_congr ?_)
        intro x _
        by_cases hx : x = t
        · simp [hx, memB]
        · simp [hx, memB, goodB]
      · have hunf : scrapeGo seen (t :: ts) = scrapeGo seen ts := by
          simp only [scrapeGo]
          rw [if_neg h]
        have hpred : (goodB t && !(memB t seen)) = false := by
          rw [Bool.and_eq_false_iff]
          by_cases h1 : t = []
          · exact Or.inl (by simp [goodB, h1])
          · by_cases h2 : 30 < t.length
            · refine Or.inr ?_
              have h3 : memB t seen = true := by
                by_contra h3
                exact h ⟨h1, h2, by simpa using h3⟩
              simp [h3]
            · exact Or.inl (by simp [goodB, h2])
        have hfc : (t :: ts).filter (fun x => goodB x && !(memB x seen))
            = ts.filter (fun x => goodB x && !(memB x seen)) := by
          simp [List.filter_cons, hpred]
        rw [hunf, ih seen, hfc]

/-- Claim C6.  Within one build, the knowledge store has no two entries with
identical content, and its contents are exactly the good (non-empty, longer
than 30 characters) text blocks with exact duplicates discarded, keeping
the first occurrence in selector-then-document order. -/
theorem C6_dedup_first (texts : List (List Char)) :
    (buildKnowledge texts).Pairwise (fun e₁ e₂ => contentOf e₁ ≠ contentOf e₂) ∧
      (buildKnowledge texts).map contentOf = firstKeep (texts.filter goodB) := by
  constructor
  · exact (scrapeGo_distinct texts []).2
  · rw [buildKnowledge, scrapeGo_firstKeep]
    congr 1
    apply List.filter_congr
    intro x _
    simp [memB]

/-- Every entry of the scraper loop's output passes the length filter. -/
theorem scrapeGo_long : ∀ ts seen e, e ∈ scrapeGo seen ts →
    30 < (contentOf e).length := by
  intro ts
  induction ts with
  | nil => intro seen e he; simp [scrapeGo] at he
  | cons t ts ih =>
      intro seen e he
      by_cases h : t ≠ [] ∧ 30 < t.length ∧ memB t seen = false
      · rw [show scrapeGo seen (t :: ts) = mkEntry t :: scrapeGo (t :: seen) ts by
          simp only [scrapeGo]; rw [if_pos h]] at he
        rcases List.mem_cons.mp he with rfl | he'
        · rw [contentOf_mkEntry]; exact h.2.1
        · exact ih _ e he'
      · rw [show scrapeGo seen (t :: ts) = scrapeGo seen ts by
          simp only [scrapeGo]; rw [if_neg h]] at he
        exact ih _ e he

/-- Claim C7.  Text blocks of stripped length ≤ 30 never reach the
knowledge store: every persisted entry has content strictly longer than 30
characters. -/
theorem C7_length_filter (texts : List (List Char)) (e : JRec)
    (he : e ∈ buildKnowledge texts) : 30 < (contentOf e).length :=
  scrapeGo_long texts [] e he

/-- Claim C7, witness: one 40-character block. -/
theorem C7_length_filter_witness :
    30 < (contentOf (mkEntry "Occams Advisory provides varied services".toList)).length :=
  C7_length_filter ["Occams Advisory provides varied services".toList] _
    (by decide)

theorem chunksOf_eq : ∀ ks : List JRec,
    (∀ e ∈ ks, (lookupKey e contentKey).isSome = true) →
    chunksOf ks = Except.ok (ks.map contentOf) := by
  intro ks
  induction ks with
  | nil => intro _; rfl
  | cons e es ih =>
      intro h
      obtain ⟨c, hc⟩ := Option.isSome_iff_exists.mp (h e (List.mem_cons_self _ _))
      have ihh := ih (fun e' he' => h e' (List.mem_cons_of_mem _ he'))
      simp [chunksOf, hc, ihh, Except.map, contentOf]

/-- Claim C8.  The Chunker is a 1:1, order-preserving map: for every list of
knowledge entries (each carrying a `content` field, as every persisted
entry does), it produces exactly one chunk per entry, equal to that entry's
content, in the same order — in particular it is length-preserving. -/
theorem C8_chunker_one_to_one (ks : List JRec)
    (h : ∀ e ∈ ks, (lookupKey e contentKey).isSome = true) :
    chunksOf ks = Except.ok (ks.map contentOf) ∧
      (ks.map contentOf).length = ks.length := by
  exact ⟨chunksOf_eq ks h, List.length_map _ _⟩

/-- Claim C8, witness: two entries. -/
theorem C8_chunker_one_to_one_witness :
    chunksOf [mkEntry ['a'], mkEntry ['b']]
        = Except.ok [['a'], ['b']] ∧
      ([mkEntry ['a'], mkEntry ['b']].map contentOf).length = 2 :=
  C8_chunker_one_to_one [mkEntry ['a'], mkEntry ['b']] (by decide)

/-- Every record the scraper emits is `mkEntry t` for some text `t`. -/
theorem scrapeGo_shape : ∀ ts seen e, e ∈ scrapeGo seen ts → ∃ t, e = mkEntry t := by
  intro ts
  induction ts with
  | nil => intro seen e he; simp [scrapeGo] at he
  | cons t ts ih =>
      intro seen e he
      by_cases h : t ≠ [] ∧ 30 < t.length ∧ memB t seen = false
      · rw [show scrapeGo seen (t :: ts) = mkEntry t :: scrapeGo (t :: seen) ts by
          simp only [scrapeGo]; rw [if_pos h]] at he
        rcases List.mem_cons.mp he with rfl | he'
        · exact ⟨t, rfl⟩
        · exact ih _ e he'
      · rw [show scrapeGo seen (t :: ts) = scrapeGo seen ts by
          simp only [scrapeGo]; rw [if_neg h]] at he
        exact ih _ e he

/-- Claim C9, amended.  Every record persisted in the knowledge store has
exactly the two fields `content` and `url` (not `source`), in that order,
with the `url` field holding the scraped page's URL.  (The original claim,
which names the second field `source`, is refuted by
`C9_record_fields_cex`.) -/
theorem C9_record_fields (texts : List (List Char)) (e : JRec)
    (he : e ∈ buildKnowledge texts) :
    e.map Prod.fst = [contentKey, urlKey] ∧ lookupKey e urlKey = some BASE_URL := by
  obtain ⟨t, rfl⟩ := scrapeGo_shape texts [] e he
  constructor
  · rfl
  · have hne : ¬ (contentKey = urlKey) := by decide
    simp [mkEntry, lookupKey, hne]

/-- Claim C9, counterexample to the original statement: a concrete build
produces a record whose keys are `content` and `url`; it has no `source`
field. -/
theorem C9_record_fields_cex :
    buildKnowledge ["Occams Advisory provides varied services".toList]
        = [mkEntry "Occams Advisory provides varied services".toList] ∧
      (mkEntry "Occams Advisory provides varied services".toList).map Prod.fst
        = ["content".toList, "url".toList] ∧
      lookupKey (mkEntry "Occams Advisory provides varied services".toList)
        "source".toList = none := by
  refine ⟨by decide, rfl, by decide⟩

/-- Claim C9, witness of the amended statement. -/
theorem C9_record_fields_witness :
    (mkEntry "Occams Advisory provides varied services".toList).map Prod.fst
        = [contentKey, urlKey] ∧
      lookupKey (mkEntry "Occams Advisory provides varied services".toList)
        urlKey = some BASE_URL :=
  C9_record_fields ["Occams Advisory provides varied services".toList] _ (by decide)

theorem lookupChat_setChat_same : ∀ (m : ChatStore) (k : List Char) (h : ChatHist),
    lookupChat (setChat m k h) k = some h := by
  intro m k h
  induction m with
  | nil => simp [setChat, lookupChat]
  | cons kv m ih =>
      obtain ⟨k', v'⟩ := kv
      by_cases hk : k' = k
      · simp [setChat, hk, lookupChat]
      · simp [setChat, hk, lookupChat, ih]

theorem lookupChat_setChat_other : ∀ (m : ChatStore) (k : List Char) (h : ChatHist)
    (k' : List Char), k' ≠ k → lookupChat (setChat m k h) k' = lookupChat m k' := by
  intro m k h
  induction m with
  | nil =>
      intro k' hk'
      have hne : ¬ (k = k') := fun hh => hk' hh.symm
      simp [setChat, lookupChat, hne]
  | cons kv m ih =>
      obtain ⟨k₀, v₀⟩ := kv
      intro k' hk'
      by_cases hk : k₀ = k
      · have hne : ¬ (k = k') := fun hh => hk' hh.symm
        simp [setChat, hk, lookupChat, hne]
      · by_cases hk0 : k₀ = k'
        · simp [setChat, hk, lookupChat, hk0, hk']
        · simp [setChat, hk, lookupChat, hk0, ih k' hk']

/-- Claim C10.  `save_chat` sets exactly the saved user's entry (later
`load_chat` of that email returns the saved history) and leaves every other
email's history unchanged; `load_chat` returns the empty history when the
chat store file is absent or has no entry for the email. -/
theorem C10_chat_frame (store : Option ChatStore) (e : List Char) (h : ChatHist) :
    load_chat (save_chat store e h) e = h ∧
      (∀ e', e' ≠ e → load_chat (save_chat store e h) e' = load_chat store e') ∧
      load_chat none e = [] ∧
      (∀ m : ChatStore, lookupChat m e = none → load_chat (some m) e = []) := by
  refine ⟨?_, ?_, rfl, ?_⟩
  · simp [load_chat, save_chat, lookupChat_setChat_same]
  · intro e' he'
    cases store with
    | none =>
        have hne : ¬ (e = e') := fun hh => he' hh.symm
        simp [load_chat, save_chat, lookupChat_setChat_other _ _ _ _ he',
          lookupChat, hne]
    | some m =>
        simp [load_chat, save_chat, lookupChat_setChat_other _ _ _ _ he']
  · intro m hm
    simp [load_chat, hm]

/-- Claim C10, witness: save into an absent store, read back both emails. -/
theorem C10_chat_frame_witness :
    load_chat (save_chat none "a@b.c".toList [("hi".toList, "yo".toList)])
        "a@b.c".toList = [("hi".toList, "yo".toList)] ∧
      load_chat (save_chat none "a@b.c".toList [("hi".toList, "yo".toList)])
        "x@y.z".toList = load_chat none "x@y.z".toList :=
  ⟨(C10_chat_frame none "a@b.c".toList [("hi".toList, "yo".toList)]).1,
    (C10_chat_frame none "a@b.c".toList [("hi".toList, "yo".toList)]).2.1
      "x@y.z".toList (by decide)⟩

end RagBot
